import Mathlib

/-!
# Verification of `stock_screener.py`

A shallow embedding of the stock screener program and proofs of its
specified properties.

The program keeps an in-memory sequence of stock records (JSON objects
fetched from an HTTP endpoint), offers three linear-scan filters over that
sequence (`filter_by_pe`, `filter_sector`, `top_dividend_stocks`), and an
export operation (`export_filtered`) that serializes a sequence to a JSON
file with `ensure_ascii=False, indent=3`.

Modelling conventions:
* JSON/Python values are the inductive `Json`; Python numbers are `ℚ`
  (the roundtrip theorems for serialization are stated for numbers with a
  terminating decimal expansion, which covers every decimal literal the
  program ever sees; the bit-level `repr` of IEEE floats is outside the
  embedding).
* A Python value of `None` is represented by `Option.none` at use sites
  (`dict.get` of a missing key, or a stored JSON `null`).
* Exceptions are `Except`: `PyErr` for `TypeError`/`AttributeError`
  raised inside a filter, `LoadError` for a failed load.  The program
  catches nothing, so an error short-circuits the whole operation,
  exactly like an uncaught Python exception.
* The network is a parameter: `load_stocks` receives the result of
  `requests.get` as an `Except Unit HttpResponse`; file output is
  modelled as the produced content string.
-/

/-! ## JSON values -/

mutual
/-- A JSON value (also standing for the corresponding Python value). -/
inductive Json where
  | null
  | bool (b : Bool)
  | num (q : ℚ)
  | str (s : String)
  | arr (elems : JList)
  | obj (fields : JFields)
deriving DecidableEq

/-- A list of JSON values (elements of a JSON array). -/
inductive JList where
  | nil
  | cons (hd : Json) (tl : JList)
deriving DecidableEq

/-- Key/value fields of a JSON object, in source order. -/
inductive JFields where
  | nil
  | cons (key : String) (val : Json) (tl : JFields)
deriving DecidableEq
end

/-- Convert an ordinary Lean list of values into a `JList`. -/
def toJList : List Json → JList
  | [] => .nil
  | v :: vs => .cons v (toJList vs)

/-- Convert a `JList` back into an ordinary Lean list. -/
def ofJList : JList → List Json
  | .nil => []
  | .cons v vs => v :: ofJList vs

/-! ## Python dictionary / value primitives -/

/-- Exceptions a filter can raise (never caught by the program). -/
inductive PyErr where
  | typeError
  | attributeError
deriving DecidableEq

deriving instance DecidableEq for Except

/-- Raw lookup in a JSON object, later fields shadowing earlier ones
(Python dicts keep one value per key; `json.loads` keeps the last). -/
def jfLookup : JFields → String → Option Json
  | .nil, _ => none
  | .cons k v fs, key =>
    match jfLookup fs key with
    | some w => some w
    | none => if k = key then some v else none

/-- The Python value of `d.get(key)`: `none` stands for Python `None`,
returned both when the key is missing and when the stored value is the
JSON `null`. -/
def dictGet (fs : JFields) (key : String) : Option Json :=
  match jfLookup fs key with
  | some .null => none
  | r => r

/-- The Python value of `d.get(key, dflt)`: the default applies only when
the key is missing; a stored JSON `null` is returned as Python `None`. -/
def dictGetD (fs : JFields) (key : String) (dflt : Json) : Option Json :=
  match jfLookup fs key with
  | none => some dflt
  | some .null => none
  | some w => some w

/-- `s.get(key)` on a record: raises `AttributeError` unless `s` is an
object (a Python dict). -/
def getAttr (s : Json) (key : String) : Except PyErr (Option Json) :=
  match s with
  | .obj fs => .ok (dictGet fs key)
  | _ => .error .attributeError

/-- The numeric content of a Python value where a number is expected:
Python `bool` is an `int` subclass, so `True`/`False` count as `1`/`0`;
anything else raises `TypeError` when compared with a number. -/
def numVal : Json → Option ℚ
  | .num q => some q
  | .bool b => some (if b then 1 else 0)
  | _ => none

/-- `v < m` for a Python value `v` and number `m` (`TypeError` when `v`
is not a number). -/
def pyLt (v : Json) (m : ℚ) : Except PyErr Bool :=
  match numVal v with
  | some p => .ok (decide (p < m))
  | none => .error .typeError

/-- `v > m` for a Python value `v` and number `m`. -/
def pyGt (v : Json) (m : ℚ) : Except PyErr Bool :=
  match numVal v with
  | some p => .ok (decide (m < p))
  | none => .error .typeError

/-- `v >= m` for a Python value `v` and number `m`. -/
def pyGe (v : Json) (m : ℚ) : Except PyErr Bool :=
  match numVal v with
  | some p => .ok (decide (m ≤ p))
  | none => .error .typeError

mutual
/-- Python `==` on values.  Numbers and booleans compare by numeric value
(`True == 1` in Python); strings compare exactly; `None` is equal only to
`None`; containers compare element-wise.  (Python dict equality ignores
insertion order; field lists here are compared in order, which coincides
on the order-preserving records this program manipulates.) -/
def pyEq : Json → Json → Bool
  | .null, .null => true
  | .num p, .num q => p = q
  | .num p, .bool b => p = (if b then 1 else 0)
  | .bool b, .num q => (if b then (1 : ℚ) else 0) = q
  | .bool a, .bool b => a = b
  | .str s, .str t => s = t
  | .arr xs, .arr ys => pyEqL xs ys
  | .obj fs, .obj gs => pyEqF fs gs
  | _, _ => false

/-- Element-wise Python `==` on JSON arrays. -/
def pyEqL : JList → JList → Bool
  | .nil, .nil => true
  | .cons x xs, .cons y ys => pyEq x y && pyEqL xs ys
  | _, _ => false

/-- Field-wise Python `==` on JSON objects. -/
def pyEqF : JFields → JFields → Bool
  | .nil, .nil => true
  | .cons k v fs, .cons k2 v2 gs => k = k2 && pyEq v v2 && pyEqF fs gs
  | _, _ => false
end

/-- Python `==` lifted to possibly-`None` values. -/
def pyEqOpt : Option Json → Option Json → Bool
  | none, none => true
  | some a, some b => pyEq a b
  | _, _ => false

/-! ## The screener filters

Each filter is translated from the body of the corresponding
`StockScreener` method, operating on the list of records it iterates
over.  A raised exception (`.error`) aborts the whole call, as in Python,
where the partially built `filtered` list is discarded by the
propagating exception. -/

/-- `bound and pe < bound` (resp. `>`): the Python condition guarding a
`continue`.  A bound of `None` — or of `0`, which is falsy in Python —
short-circuits the `and`, so the comparison is not even evaluated. -/
def boundSkips (cmp : Json → ℚ → Except PyErr Bool) (bound : Option ℚ) (p : Json) :
    Except PyErr Bool :=
  match bound with
  | none => .ok false
  | some m => if m = 0 then .ok false else cmp p m

/-- `StockScreener.filter_by_pe` (src/stock_screener.py:18-30): keep a
record unless its `pe` is `None`/missing, or a truthy `min_pe` exceeds
it, or a truthy `max_pe` is below it. -/
def filter_by_pe : List Json → Option ℚ → Option ℚ → Except PyErr (List Json)
  | [], _, _ => .ok []
  | s :: rest, mn, mx =>
    match getAttr s "pe" with
    | .error e => .error e
    | .ok none => filter_by_pe rest mn mx
    | .ok (some p) =>
      match boundSkips pyLt mn p with
      | .error e => .error e
      | .ok true => filter_by_pe rest mn mx
      | .ok false =>
        match boundSkips pyGt mx p with
        | .error e => .error e
        | .ok true => filter_by_pe rest mn mx
        | .ok false =>
          match filter_by_pe rest mn mx with
          | .error e => .error e
          | .ok tail => .ok (s :: tail)

/-- `StockScreener.filter_sector` (src/stock_screener.py:32-35): keep the
records with `s.get("sector") == sector`.  The argument is a Python
value (`none` models passing `None`). -/
def filter_sector : List Json → Option Json → Except PyErr (List Json)
  | [], _ => .ok []
  | s :: rest, sector =>
    match getAttr s "sector" with
    | .error e => .error e
    | .ok v =>
      match filter_sector rest sector with
      | .error e => .error e
      | .ok tail => .ok (if pyEqOpt v sector then s :: tail else tail)

/-- `StockScreener.top_dividend_stocks` (src/stock_screener.py:37-40):
keep the records with `s.get("div_yield", 0) >= min_yield`. -/
def top_dividend_stocks : List Json → ℚ → Except PyErr (List Json)
  | [], _ => .ok []
  | s :: rest, min_yield =>
    match s with
    | .obj fs =>
      match dictGetD fs "div_yield" (.num 0) with
      | none => .error .typeError
      | some w =>
        match pyGe w min_yield with
        | .error e => .error e
        | .ok keep =>
          match top_dividend_stocks rest min_yield with
          | .error e => .error e
          | .ok tail => .ok (if keep then s :: tail else tail)
    | _ => .error .attributeError

/-! ## Decimal digits -/

/-- The decimal digit character for `d < 10` (clamped at `'9'`). -/
def digitChar : ℕ → Char
  | 0 => '0' | 1 => '1' | 2 => '2' | 3 => '3' | 4 => '4'
  | 5 => '5' | 6 => '6' | 7 => '7' | 8 => '8' | _ => '9'

/-- Decimal digits of `n`, most significant first; `fuel` bounds the
recursion (`n < fuel` suffices). -/
def natToDigitsAux : ℕ → ℕ → List Char
  | 0, _ => []
  | f + 1, n =>
    if n < 10 then [digitChar n]
    else natToDigitsAux f (n / 10) ++ [digitChar (n % 10)]

/-- Decimal representation of a natural number. -/
def natToDec (n : ℕ) : List Char := natToDigitsAux (n + 1) n

/-- Decimal representation of `n` left-padded with zeros to `k` digits
(used for the fractional part, where leading zeros are significant). -/
def padDigits (k n : ℕ) : List Char :=
  List.replicate (k - (natToDec n).length) '0' ++ natToDec n

/-! ## Number serialization

A Python `float` prints (and serializes) as the shortest decimal string
that denotes it; every such string is a terminating decimal.  We model
numbers as rationals and serialize exactly those with a terminating
decimal expansion, i.e. denominators of the form `2^a * 5^b` —
equivalently `q.den ∣ 10 ^ q.den`. -/

/-- The number `q` has a terminating decimal expansion. -/
def wfNum (q : ℚ) : Bool := decide (q.den ∣ 10 ^ q.den)

/-- The least number of decimal places needed for `q` (junk when
`wfNum q` fails). -/
def kOf (q : ℚ) : ℕ :=
  (((List.range (q.den + 1)).find? fun k => decide (q.den ∣ 10 ^ k)).getD 0)

/-- `|q| * 10 ^ kOf q` as a natural number (exact when `wfNum q`). -/
def mantissa (q : ℚ) : ℕ := q.num.natAbs * 10 ^ kOf q / q.den

/-- Decimal representation of `|q|`: an integer when no decimal places
are needed, otherwise integer part, `'.'`, and exactly `kOf q`
fractional digits. -/
def ratUnsigned (q : ℚ) : List Char :=
  if kOf q = 0 then natToDec (mantissa q)
  else natToDec (mantissa q / 10 ^ kOf q) ++ '.' :: padDigits (kOf q) (mantissa q % 10 ^ kOf q)

/-- Decimal representation of `q`, with a leading `'-'` when negative. -/
def ratToChars (q : ℚ) : List Char :=
  (if q < 0 then ['-'] else []) ++ ratUnsigned q

/-! ## String escaping (`ensure_ascii=False`)

With `ensure_ascii=False`, `json.dump` escapes only `"` and `\` and the
control characters below `0x20` (short escapes for the common ones,
`\u00XX` otherwise); everything else, non-ASCII included, is written
literally. -/

/-- The hexadecimal digit character for `d < 16` (clamped). -/
def hexChar (d : ℕ) : Char :=
  if d < 10 then digitChar d
  else if d = 10 then 'a' else if d = 11 then 'b' else if d = 12 then 'c'
  else if d = 13 then 'd' else if d = 14 then 'e' else 'f'

/-- The serialization of one character inside a JSON string. -/
def escChar (c : Char) : List Char :=
  if c = '"' then ['\\', '"']
  else if c = '\\' then ['\\', '\\']
  else if c = '\n' then ['\\', 'n']
  else if c = '\t' then ['\\', 't']
  else if c = '\r' then ['\\', 'r']
  else if c = Char.ofNat 8 then ['\\', 'b']
  else if c = Char.ofNat 12 then ['\\', 'f']
  else if c.toNat < 32 then
    ['\\', 'u', '0', '0', hexChar (c.toNat / 16), hexChar (c.toNat % 16)]
  else [c]

/-- Serialization of the characters of a JSON string (quotes excluded). -/
def escChars : List Char → List Char
  | [] => []
  | c :: cs => escChar c ++ escChars cs

/-- `s` has no control characters, so its serialization uses only the
two self-inverse escapes `\"` and `\\`. -/
def wfStr (s : String) : Bool := s.data.all fun c => 32 ≤ c.toNat

/-! ## The serializer: `json.dump(x, f, ensure_ascii=False, indent=3)` -/

/-- The indentation prefix at nesting depth `k` (three spaces per
level). -/
def indentChars (k : ℕ) : List Char := List.replicate (3 * k) ' '

mutual
/-- Serialization of a value at nesting depth `k`, matching
`json.dump(·, ensure_ascii=False, indent=3)`: empty containers stay on
one line, non-empty containers put each item on its own indented line. -/
def serJson : ℕ → Json → List Char
  | _, .null => ['n', 'u', 'l', 'l']
  | _, .bool true => ['t', 'r', 'u', 'e']
  | _, .bool false => ['f', 'a', 'l', 's', 'e']
  | _, .num q => ratToChars q
  | _, .str s => '"' :: (escChars s.data ++ ['"'])
  | _, .arr .nil => ['[', ']']
  | k, .arr (.cons v l) =>
    '[' :: '\n' :: (serElems (k + 1) (.cons v l) ++ '\n' :: (indentChars k ++ [']']))
  | _, .obj .nil => ['\x7b', '\x7d']
  | k, .obj (.cons key v l) =>
    '\x7b' :: '\n' :: (serFields (k + 1) (.cons key v l) ++ '\n' :: (indentChars k ++ ['\x7d']))

/-- Serialization of the items of a non-empty array, one per line at
depth `k`, separated by `",\n"` (empty case unreachable from `serJson`). -/
def serElems : ℕ → JList → List Char
  | _, .nil => []
  | k, .cons v .nil => indentChars k ++ serJson k v
  | k, .cons v (.cons w l) =>
    indentChars k ++ (serJson k v ++ ',' :: '\n' :: serElems k (.cons w l))

/-- Serialization of the fields of a non-empty object, one per line at
depth `k`, with the `": "` key separator. -/
def serFields : ℕ → JFields → List Char
  | _, .nil => []
  | k, .cons key v .nil =>
    indentChars k ++ '"' :: (escChars key.data ++ '"' :: ':' :: ' ' :: serJson k v)
  | k, .cons key v (.cons key2 w l) =>
    indentChars k ++ '"' :: (escChars key.data ++ '"' :: ':' :: ' ' ::
      (serJson k v ++ ',' :: '\n' :: serFields k (.cons key2 w l)))
end

mutual
/-- The value is inside the serializable fragment: every number has a
terminating decimal expansion and no string contains a control
character. -/
def wfJ : Json → Bool
  | .null => true
  | .bool _ => true
  | .num q => wfNum q
  | .str s => wfStr s
  | .arr l => wfL l
  | .obj fs => wfF fs

/-- `wfJ` on every element. -/
def wfL : JList → Bool
  | .nil => true
  | .cons v l => wfJ v && wfL l

/-- `wfJ` on every field value, `wfStr` on every key. -/
def wfF : JFields → Bool
  | .nil => true
  | .cons k v fs => wfStr k && wfJ v && wfF fs
end

/-- `StockScreener.export_filtered` (src/stock_screener.py:42-45): the
content written to the output file — the given sequence serialized as a
JSON array with `ensure_ascii=False, indent=3`. -/
def export_filtered (stocks : List Json) : String :=
  String.mk (serJson 0 (.arr (toJList stocks)))

/-! ## The parser: `json.loads` / `response.json()` -/

/-- JSON insignificant whitespace. -/
def isWs (c : Char) : Bool :=
  c = ' ' || c = '\n' || c = '\t' || c = '\r'

/-- Drop leading whitespace. -/
def skipWs (cs : List Char) : List Char := cs.dropWhile isWs

/-- Consume a maximal run of decimal digits, accumulating their value
into `acc` and their count into `cnt`. -/
def digitsMunch : ℕ → ℕ → List Char → ℕ × ℕ × List Char
  | acc, cnt, [] => (acc, cnt, [])
  | acc, cnt, c :: cs =>
    if c.isDigit then digitsMunch (10 * acc + (c.toNat - 48)) (cnt + 1) cs
    else (acc, cnt, c :: cs)

/-- Decode a single-character string escape. -/
def unescape (c : Char) : Option Char :=
  if c = '"' then some '"'
  else if c = '\\' then some '\\'
  else if c = '/' then some '/'
  else if c = 'n' then some '\n'
  else if c = 't' then some '\t'
  else if c = 'r' then some '\r'
  else if c = 'b' then some (Char.ofNat 8)
  else if c = 'f' then some (Char.ofNat 12)
  else none

/-- Consume the body of a JSON string up to and including the closing
quote, returning the decoded characters and the remaining input. -/
def strMunch : List Char → Option (List Char × List Char)
  | [] => none
  | '"' :: cs => some ([], cs)
  | '\\' :: [] => none
  | '\\' :: e :: cs' =>
    match unescape e with
    | none => none
    | some d => (strMunch cs').map fun p => (d :: p.1, p.2)
  | c :: cs => (strMunch cs).map fun p => (c :: p.1, p.2)

/-- Parse an unsigned JSON number: an integer part and an optional
fractional part. -/
def parseUnsigned (cs : List Char) : Option (ℚ × List Char) :=
  match digitsMunch 0 0 cs with
  | (ip, icnt, r1) =>
    if icnt = 0 then none
    else
      match r1 with
      | '.' :: r2 =>
        match digitsMunch 0 0 r2 with
        | (fr, fcnt, r3) =>
          if fcnt = 0 then none
          else some ((ip : ℚ) + (fr : ℚ) / 10 ^ fcnt, r3)
      | _ => some ((ip : ℚ), r1)

/-- Parse a value whose first (non-whitespace) character is `c`, the
rest of the input being `cs'`; `pe` and `pf` parse array elements and
object fields. -/
def parseHead (c : Char) (cs' : List Char)
    (pe : List Char → Option (JList × List Char))
    (pf : List Char → Option (JFields × List Char)) : Option (Json × List Char) :=
  if c = 'n' then
    match cs' with
    | 'u' :: 'l' :: 'l' :: r => some (.null, r)
    | _ => none
  else if c = 't' then
    match cs' with
    | 'r' :: 'u' :: 'e' :: r => some (.bool true, r)
    | _ => none
  else if c = 'f' then
    match cs' with
    | 'a' :: 'l' :: 's' :: 'e' :: r => some (.bool false, r)
    | _ => none
  else if c = '"' then
    (strMunch cs').map fun p => (.str (String.mk p.1), p.2)
  else if c = '[' then
    match skipWs cs' with
    | d :: r => if d = ']' then some (.arr .nil, r) else (pe cs').map fun p => (.arr p.1, p.2)
    | [] => none
  else if c = '\x7b' then
    match skipWs cs' with
    | d :: r => if d = '\x7d' then some (.obj .nil, r) else (pf cs').map fun p => (.obj p.1, p.2)
    | [] => none
  else if c = '-' then
    (parseUnsigned cs').map fun p => (.num (-p.1), p.2)
  else if c.isDigit then
    (parseUnsigned (c :: cs')).map fun p => (.num p.1, p.2)
  else none

mutual
/-- Parse one JSON value (fuel-bounded recursive descent). -/
def parseVal : ℕ → List Char → Option (Json × List Char)
  | 0, _ => none
  | f + 1, cs =>
    match skipWs cs with
    | [] => none
    | c :: cs' => parseHead c cs' (parseElems f) (parseFields f)

/-- Parse the items of a non-empty array, after the opening `'['`. -/
def parseElems : ℕ → List Char → Option (JList × List Char)
  | 0, _ => none
  | f + 1, cs =>
    match parseVal f cs with
    | none => none
    | some (v, r) =>
      match skipWs r with
      | ',' :: r2 => (parseElems f r2).map fun p => (.cons v p.1, p.2)
      | ']' :: r2 => some (.cons v .nil, r2)
      | _ => none

/-- Parse the fields of a non-empty object, after the opening brace. -/
def parseFields : ℕ → List Char → Option (JFields × List Char)
  | 0, _ => none
  | f + 1, cs =>
    match skipWs cs with
    | c :: cs' =>
      if c = '"' then
        match strMunch cs' with
        | none => none
        | some (key, r1) =>
          match skipWs r1 with
          | ':' :: r2 =>
            match parseVal f r2 with
            | none => none
            | some (v, r3) =>
              match skipWs r3 with
              | ',' :: r4 => (parseFields f r4).map fun p => (.cons (String.mk key) v p.1, p.2)
              | '\x7d' :: r4 => some (.cons (String.mk key) v .nil, r4)
              | _ => none
          | _ => none
      else none
    | [] => none
end

/-- `json.loads`: parse a complete document, allowing surrounding
whitespace and nothing else. -/
def jsonParse (s : String) : Option Json :=
  match parseVal (s.length + 1) s.data with
  | none => none
  | some (v, rest) => if skipWs rest = [] then some v else none

/-! ## Screener state, load, and the CLI flow -/

/-- The `StockScreener` instance state: `self.stocks` (any parsed JSON
value — the program never validates that the response is an array) and
the never-used `self.filters` dict. -/
structure Screener where
  stocks : Json
  filters : JFields
deriving DecidableEq

/-- `StockScreener.__init__`: `self.stocks = []`, `self.filters` empty. -/
def Screener.init : Screener := ⟨.arr .nil, .nil⟩

/-- The keys of a JSON object, as values (what Python dict iteration
yields). -/
def jfKeys : JFields → List Json
  | .nil => []
  | .cons k _ fs => .str k :: jfKeys fs

/-- Python iteration over `self.stocks`: a list yields its elements, a
dict yields its keys, a string yields its characters; other values raise
`TypeError`. -/
def pyElems : Json → Except PyErr (List Json)
  | .arr l => .ok (ofJList l)
  | .obj fs => .ok (jfKeys fs)
  | .str s => .ok (s.data.map fun c => .str (String.mk [c]))
  | _ => .error .typeError

/-- Method `filter_by_pe` on the instance: reads `self.stocks`, never
writes it, and returns the freshly built filtered list. -/
def Screener.filterByPe (scr : Screener) (mn mx : Option ℚ) :
    Except PyErr (List Json) × Screener :=
  ((match pyElems scr.stocks with
    | .error e => .error e
    | .ok xs => filter_by_pe xs mn mx), scr)

/-- Method `filter_sector` on the instance. -/
def Screener.filterSector (scr : Screener) (sector : Option Json) :
    Except PyErr (List Json) × Screener :=
  ((match pyElems scr.stocks with
    | .error e => .error e
    | .ok xs => filter_sector xs sector), scr)

/-- Method `top_dividend_stocks` on the instance. -/
def Screener.topDividendStocks (scr : Screener) (min_yield : ℚ) :
    Except PyErr (List Json) × Screener :=
  ((match pyElems scr.stocks with
    | .error e => .error e
    | .ok xs => top_dividend_stocks xs min_yield), scr)

/-- An HTTP response as seen by the program: a status code (which the
program never reads) and a body. -/
structure HttpResponse where
  status : ℕ
  body : String
deriving DecidableEq

/-- The error classes of the load's external steps: a `requests`
exception (connection-level failure of the GET) or a `json` decode error
of the body.  The program catches neither. -/
inductive LoadError where
  | network
  | parse
deriving DecidableEq

/-- Everything `load_stocks` can raise: the two external error classes,
or a Python exception from the method body itself (the `len()` in its
count-reporting `print` raises `TypeError` on an unsized value). -/
inductive LoadRaise where
  | network
  | parse
  | py (e : PyErr)
deriving DecidableEq

/-- Length of a JSON array. -/
def jlLength : JList → ℕ
  | .nil => 0
  | .cons _ l => jlLength l + 1

/-- Number of fields of a JSON object (Python `len` of a dict counts its
keys; parsed objects carry one field per key up to duplicate-key source
text, which the program never observes beyond raise-or-not). -/
def jfLength : JFields → ℕ
  | .nil => 0
  | .cons _ _ fs => jfLength fs + 1

/-- Python `len()`: defined for lists, dicts and strings; `TypeError` on
numbers, booleans and `None`. -/
def pyLen : Json → Except PyErr ℕ
  | .arr l => .ok (jlLength l)
  | .obj fs => .ok (jfLength fs)
  | .str s => .ok s.length
  | _ => .error .typeError

/-- `StockScreener.load_stocks` (src/stock_screener.py:13-16): perform
the GET (its outcome is the `response` argument), parse the body,
replace `self.stocks` with the parsed value, then report the count with
`print(f"... {len(self.stocks)} ...")`.  On a GET or parse error the
exception propagates with `self.stocks` unchanged; when the parsed body
has no `len()` (a number, boolean or `null`), the report line raises an
uncaught `TypeError` after the assignment, so `self.stocks` is already
replaced. -/
def load_stocks (scr : Screener) (response : Except Unit HttpResponse) :
    Except LoadRaise Unit × Screener :=
  match response with
  | .error _ => (.error .network, scr)
  | .ok r =>
    match jsonParse r.body with
    | none => (.error .parse, scr)
    | some v =>
      match pyLen v with
      | .error e => (.error (.py e), { scr with stocks := v })
      | .ok _ => (.ok (), { scr with stocks := v })

/-- The default `api_url` of `load_stocks`. -/
def defaultApiUrl : String := "https://mock-stock-api.com/api/stocks"

/-- Any uncaught error of the `__main__` run. -/
inductive RunError where
  | load (e : LoadError)
  | py (e : PyErr)
deriving DecidableEq

/-- The `__main__` block (src/stock_screener.py:47-51): build a screener,
load from the default URL, filter by P/E between 5 and 15, and export
the result to `pe_stocks.json`.  The network is the `fetch` parameter;
the result is the written file's name and content (or the uncaught
error that aborted the run). -/
def main_flow (fetch : String → Except Unit HttpResponse) :
    Except RunError (String × String) :=
  match load_stocks Screener.init (fetch defaultApiUrl) with
  | (.error .network, _) => .error (.load .network)
  | (.error .parse, _) => .error (.load .parse)
  | (.error (.py e), _) => .error (.py e)
  | (.ok (), scr) =>
    match scr.filterByPe (some 5) (some 15) with
    | (.error e, _) => .error (.py e)
    | (.ok pe_stocks, _) => .ok ("pe_stocks.json", export_filtered pe_stocks)

/-! ## Specification-side predicates

These are written from the wording of the specification, to be compared
with the translated code. -/

/-- The `pe` value of a record, as the specification reads it: present
and numeric (a stored `null` counts as absent, exactly as `s.get("pe")
is None` sees it). -/
def recordPe (s : Json) : Option ℚ :=
  match s with
  | .obj fs => (dictGet fs "pe").bind numVal
  | _ => none

/-- The keep-condition of `filterByRatioRange` read literally: `pe`
present AND (minValue absent OR `pe >= minValue`) AND (maxValue absent
OR `pe <= maxValue`), where "absent" is exactly a missing bound. -/
def specKeepPeStrict (s : Json) (mn mx : Option ℚ) : Bool :=
  match recordPe s with
  | none => false
  | some p =>
    (match mn with
     | none => true
     | some m => decide (m ≤ p)) &&
    (match mx with
     | none => true
     | some m => decide (p ≤ m))

/-- The keep-condition with the documented falsy-zero quirk folded in: a
bound equal to `0` imposes no constraint, like an absent one. -/
def specKeepPe (s : Json) (mn mx : Option ℚ) : Bool :=
  match recordPe s with
  | none => false
  | some p =>
    (match mn with
     | none => true
     | some m => m = 0 || decide (m ≤ p)) &&
    (match mx with
     | none => true
     | some m => m = 0 || decide (p ≤ m))

/-- The record is an object whose `pe` field, when present, is `null`,
a number, or a boolean — the shapes on which the comparison with a
numeric bound cannot raise. -/
def peCleanRec (s : Json) : Bool :=
  match s with
  | .obj fs =>
    match jfLookup fs "pe" with
    | none => true
    | some .null => true
    | some (.num _) => true
    | some (.bool _) => true
    | _ => false
  | _ => false

/-- Every record of the sequence satisfies `peCleanRec`. -/
def peClean (stocks : List Json) : Bool := stocks.all peCleanRec

/-- Every record of the sequence is an object (all `filter_sector` needs
in order not to raise). -/
def sectorClean (stocks : List Json) : Bool :=
  stocks.all fun s =>
    match s with
    | .obj _ => true
    | _ => false

/-- The keep-condition of `filterBySector` read from the spec: the
`sector` field is present with exactly the given string value. -/
def specSectorEq (s : Json) (sec : String) : Bool :=
  match s with
  | .obj fs =>
    match jfLookup fs "sector" with
    | some (.str t) => t = sec
    | _ => false
  | _ => false

/-- The records selected by `filter_sector None`: those without a
`sector` field, plus those whose `sector` is an explicit `null`. -/
def specSectorNone (s : Json) : Bool :=
  match s with
  | .obj fs =>
    match jfLookup fs "sector" with
    | none => true
    | some .null => true
    | _ => false
  | _ => false

/-- The record is an object whose `div_yield` field, when present, is a
number or a boolean (a stored `null` would make `s.get("div_yield", 0)`
return `None` and the comparison raise). -/
def divCleanRec (s : Json) : Bool :=
  match s with
  | .obj fs =>
    match jfLookup fs "div_yield" with
    | none => true
    | some (.num _) => true
    | some (.bool _) => true
    | _ => false
  | _ => false

/-- Every record of the sequence satisfies `divCleanRec`. -/
def divClean (stocks : List Json) : Bool := stocks.all divCleanRec

/-- The `div_yield` of a record as the spec reads it (absent field taken
as numeric, not collapsing `null`, since the default of `get` applies
only to a missing key). -/
def recordYield (s : Json) : Option ℚ :=
  match s with
  | .obj fs => (jfLookup fs "div_yield").bind numVal
  | _ => none

/-- The keep-condition of `topDividendStocks` from the spec: `div_yield`
(defaulting to 0 when the field is absent) at least `minYield`. -/
def specKeepDiv (s : Json) (minYield : ℚ) : Bool :=
  decide (minYield ≤ (recordYield s).getD 0)

/-! ## Parsing auxiliaries used by the round-trip proofs -/

/-- The input continues with a character that can legitimately follow a
serialized value: a separator, a closing bracket, or layout whitespace
(or nothing).  Numbers are the only values parsed by maximal munch, and
none of these characters extends a number. -/
def delim : List Char → Bool
  | [] => true
  | c :: _ => c = ',' || c = ']' || c = '\x7d' || c = '\n' || c = ' '

/-- The character may open a serialized value: it is not layout
whitespace and not a closing bracket, so the parser neither skips it nor
mistakes it for the end of a container. -/
def openerOk (c : Char) : Bool :=
  !isWs c && !(c = ']') && !(c = '\x7d')

mutual
/-- Parser fuel sufficient for a value. -/
def fuelJ : Json → ℕ
  | .null => 1
  | .bool _ => 1
  | .num _ => 1
  | .str _ => 1
  | .arr l => 1 + fuelL l
  | .obj fs => 1 + fuelF fs

/-- Parser fuel sufficient for the items of an array. -/
def fuelL : JList → ℕ
  | .nil => 0
  | .cons v l => 1 + max (fuelJ v) (fuelL l)

/-- Parser fuel sufficient for the fields of an object. -/
def fuelF : JFields → ℕ
  | .nil => 0
  | .cons _ v fs => 1 + max (fuelJ v) (fuelF fs)
end

/-! ## Properties of the filters -/

theorem ofJList_toJList (l : List Json) : ofJList (toJList l) = l := by
  induction l with
  | nil => rfl
  | cons v vs ih => simp [toJList, ofJList, ih]

/-- Claim C1 (counterexample to the literal reading): with `minValue = 0`
and a record whose `pe` is `-1`, the filter keeps the record even though
`pe >= minValue` fails — a present-but-zero bound imposes no constraint,
so the output is not the set of records satisfying the literal
keep-condition. -/
theorem filter_by_pe_strict_cex :
    filter_by_pe [Json.obj (.cons "pe" (.num (-1)) .nil)] (some 0) none =
      .ok [Json.obj (.cons "pe" (.num (-1)) .nil)] ∧
    List.filter (fun s => specKeepPeStrict s (some 0) none)
      [Json.obj (.cons "pe" (.num (-1)) .nil)] = [] := by
  decide

/-- Claim C1 (as amended): on a sequence of records whose `pe` fields are
absent, `null`, numeric or boolean, `filter_by_pe` returns exactly the
records whose `pe` is present and satisfies (minValue absent or zero, or
`pe >= minValue`) and (maxValue absent or zero, or `pe <= maxValue`);
records with `pe` missing are always excluded, and the output is the
`List.filter` of the input — a subsequence in the original relative
order. -/
theorem filter_by_pe_spec (stocks : List Json) (mn mx : Option ℚ)
    (h : peClean stocks = true) :
    filter_by_pe stocks mn mx = .ok (stocks.filter fun s => specKeepPe s mn mx) := by
  induction stocks with
  | nil => rfl
  | cons s rest ih =>
    simp only [peClean, List.all_cons, Bool.and_eq_true] at h
    obtain ⟨hs, hrest⟩ := h
    have ihr := ih hrest
    clear ih
    cases s with
    | null => simp [peCleanRec] at hs
    | bool b => simp [peCleanRec] at hs
    | num q => simp [peCleanRec] at hs
    | str t => simp [peCleanRec] at hs
    | arr l => simp [peCleanRec] at hs
    | obj fs =>
      have keepnum : ∀ (w : Json) (p : ℚ), dictGet fs "pe" = some w → numVal w = some p →
          filter_by_pe (Json.obj fs :: rest) mn mx =
            .ok (List.filter (fun s => specKeepPe s mn mx) (Json.obj fs :: rest)) := by
        intro w p hd hw
        rcases mn with _ | m
        · rcases mx with _ | M
          · simp [filter_by_pe, getAttr, hd, hw, boundSkips, List.filter_cons, ihr,
              specKeepPe, recordPe]
          · by_cases hM : M = 0
            · subst hM
              simp [filter_by_pe, getAttr, hd, hw, boundSkips, pyGt, List.filter_cons, ihr,
                specKeepPe, recordPe]
            · by_cases hp : M < p
              · simp [filter_by_pe, getAttr, hd, hw, boundSkips, pyGt, List.filter_cons, ihr,
                  specKeepPe, recordPe, hM, hp, not_le.mpr hp]
              · simp [filter_by_pe, getAttr, hd, hw, boundSkips, pyGt, List.filter_cons, ihr,
                  specKeepPe, recordPe, hM, hp, not_lt.mp hp]
        · rcases mx with _ | M
          · by_cases hm : m = 0
            · subst hm
              simp [filter_by_pe, getAttr, hd, hw, boundSkips, pyLt, List.filter_cons, ihr,
                specKeepPe, recordPe]
            · by_cases hp : p < m
              · simp [filter_by_pe, getAttr, hd, hw, boundSkips, pyLt, List.filter_cons, ihr,
                  specKeepPe, recordPe, hm, hp, not_le.mpr hp]
              · simp [filter_by_pe, getAttr, hd, hw, boundSkips, pyLt, List.filter_cons, ihr,
                  specKeepPe, recordPe, hm, hp, not_lt.mp hp]
          · by_cases hm : m = 0
            · subst hm
              by_cases hM : M = 0
              · subst hM
                simp [filter_by_pe, getAttr, hd, hw, boundSkips, pyLt, pyGt, List.filter_cons,
                  ihr, specKeepPe, recordPe]
              · by_cases hpM : M < p
                · simp [filter_by_pe, getAttr, hd, hw, boundSkips, pyLt, pyGt, List.filter_cons,
                    ihr, specKeepPe, recordPe, hM, hpM, not_le.mpr hpM]
                · simp [filter_by_pe, getAttr, hd, hw, boundSkips, pyLt, pyGt, List.filter_cons,
                    ihr, specKeepPe, recordPe, hM, hpM, not_lt.mp hpM]
            · by_cases hpm : p < m
              · simp [filter_by_pe, getAttr, hd, hw, boundSkips, pyLt, pyGt, List.filter_cons,
                  ihr, specKeepPe, recordPe, hm, hpm, not_le.mpr hpm]
              · by_cases hM : M = 0
                · subst hM
                  simp [filter_by_pe, getAttr, hd, hw, boundSkips, pyLt, pyGt, List.filter_cons,
                    ihr, specKeepPe, recordPe, hm, hpm, not_lt.mp hpm]
                · by_cases hpM : M < p
                  · simp [filter_by_pe, getAttr, hd, hw, boundSkips, pyLt, pyGt,
                      List.filter_cons, ihr, specKeepPe, recordPe, hm, hpm, hM, hpM,
                      not_lt.mp hpm, not_le.mpr hpM]
                  · simp [filter_by_pe, getAttr, hd, hw, boundSkips, pyLt, pyGt,
                      List.filter_cons, ihr, specKeepPe, recordPe, hm, hpm, hM, hpM,
                      not_lt.mp hpm, not_lt.mp hpM]
      cases hw : jfLookup fs "pe" with
      | none =>
        have hd : dictGet fs "pe" = none := by simp [dictGet, hw]
        simp [filter_by_pe, getAttr, hd, List.filter_cons, specKeepPe, recordPe, ihr]
      | some w =>
        cases w with
        | null =>
          have hd : dictGet fs "pe" = none := by simp [dictGet, hw]
          simp [filter_by_pe, getAttr, hd, List.filter_cons, specKeepPe, recordPe, ihr]
        | num p => exact keepnum (.num p) p (by simp [dictGet, hw]) rfl
        | bool b => exact keepnum (.bool b) (if b then 1 else 0) (by simp [dictGet, hw]) rfl
        | str t => simp [peCleanRec, hw] at hs
        | arr l => simp [peCleanRec, hw] at hs
        | obj gs => simp [peCleanRec, hw] at hs

/-- Witness for C1: the clean three-record sequence with `pe` values
`7`, `20` and missing, filtered with bounds `[5, 15]`, keeps exactly the
`pe = 7` record. -/
theorem filter_by_pe_spec_witness :
    peClean [Json.obj (.cons "pe" (.num 7) .nil), Json.obj (.cons "pe" (.num 20) .nil),
      Json.obj .nil] = true ∧
    filter_by_pe [Json.obj (.cons "pe" (.num 7) .nil), Json.obj (.cons "pe" (.num 20) .nil),
      Json.obj .nil] (some 5) (some 15) = .ok [Json.obj (.cons "pe" (.num 7) .nil)] :=
  ⟨by decide, by rw [filter_by_pe_spec _ _ _ (by decide)]; decide⟩

/-- A zero minimum bound is ignored: it filters exactly like an absent
one. -/
theorem filter_by_pe_min_zero (stocks : List Json) (mx : Option ℚ) :
    filter_by_pe stocks (some 0) mx = filter_by_pe stocks none mx := by
  induction stocks with
  | nil => rfl
  | cons s rest ih =>
    cases h : getAttr s "pe" with
    | error e => simp [filter_by_pe, h]
    | ok v =>
      cases v with
      | none => simp [filter_by_pe, h, ih]
      | some p => simp [filter_by_pe, h, ih, boundSkips]

/-- A zero maximum bound is ignored: it filters exactly like an absent
one. -/
theorem filter_by_pe_max_zero (stocks : List Json) (mn : Option ℚ) :
    filter_by_pe stocks mn (some 0) = filter_by_pe stocks mn none := by
  induction stocks with
  | nil => rfl
  | cons s rest ih =>
    cases h : getAttr s "pe" with
    | error e => simp [filter_by_pe, h]
    | ok v =>
      cases v with
      | none => simp [filter_by_pe, h, ih]
      | some p =>
        cases hb : boundSkips pyLt mn p with
        | error e => simp [filter_by_pe, h, hb]
        | ok b =>
          cases b with
          | true => simp [filter_by_pe, h, hb, ih]
          | false => simp [filter_by_pe, h, hb, boundSkips, ih]

/-- Claim C2: on every stored sequence, a `minValue` (resp. `maxValue`)
of exactly `0` behaves as if the bound were absent — the result equals
the result with that bound omitted.  This holds with no cleanliness
assumption: the zero bound short-circuits before any comparison. -/
theorem filter_by_pe_zero_bound (stocks : List Json) (mn mx : Option ℚ) :
    filter_by_pe stocks (some 0) mx = filter_by_pe stocks none mx ∧
    filter_by_pe stocks mn (some 0) = filter_by_pe stocks mn none :=
  ⟨filter_by_pe_min_zero stocks mx, filter_by_pe_max_zero stocks mn⟩

/-- Claim C3: on a sequence of records whose `div_yield` fields are
absent, numeric or boolean, `top_dividend_stocks` returns exactly the
records whose `div_yield` — taken as `0` when the field is absent — is
at least `min_yield`, as a `List.filter` of the input (relative order
preserved). -/
theorem top_dividend_stocks_spec (stocks : List Json) (my : ℚ)
    (h : divClean stocks = true) :
    top_dividend_stocks stocks my = .ok (stocks.filter fun s => specKeepDiv s my) := by
  induction stocks with
  | nil => rfl
  | cons s rest ih =>
    simp only [divClean, List.all_cons, Bool.and_eq_true] at h
    obtain ⟨hs, hrest⟩ := h
    have ihr := ih hrest
    clear ih
    cases s with
    | null => simp [divCleanRec] at hs
    | bool b => simp [divCleanRec] at hs
    | num q => simp [divCleanRec] at hs
    | str t => simp [divCleanRec] at hs
    | arr l => simp [divCleanRec] at hs
    | obj fs =>
      cases hw : jfLookup fs "div_yield" with
      | none =>
        simp [top_dividend_stocks, dictGetD, hw, pyGe, numVal, ihr, List.filter_cons,
          specKeepDiv, recordYield]
      | some w =>
        cases w with
        | num y =>
          simp [top_dividend_stocks, dictGetD, hw, pyGe, numVal, ihr, List.filter_cons,
            specKeepDiv, recordYield]
        | bool b =>
          simp [top_dividend_stocks, dictGetD, hw, pyGe, numVal, ihr, List.filter_cons,
            specKeepDiv, recordYield]
        | null => simp [divCleanRec, hw] at hs
        | str t => simp [divCleanRec, hw] at hs
        | arr l => simp [divCleanRec, hw] at hs
        | obj gs => simp [divCleanRec, hw] at hs

/-- Witness for C3, the spec's own test vector: yields
`[0.03, 0.05, 0.1, missing]` with `minYield = 0.05` keep exactly the
`0.05` and `0.1` records, in order. -/
theorem top_dividend_stocks_spec_witness :
    divClean [Json.obj (.cons "div_yield" (.num (3/100)) .nil),
      Json.obj (.cons "div_yield" (.num (5/100)) .nil),
      Json.obj (.cons "div_yield" (.num (1/10)) .nil),
      Json.obj (.cons "ticker" (.str "D") .nil)] = true ∧
    top_dividend_stocks [Json.obj (.cons "div_yield" (.num (3/100)) .nil),
      Json.obj (.cons "div_yield" (.num (5/100)) .nil),
      Json.obj (.cons "div_yield" (.num (1/10)) .nil),
      Json.obj (.cons "ticker" (.str "D") .nil)] (5/100) =
      .ok [Json.obj (.cons "div_yield" (.num (5/100)) .nil),
        Json.obj (.cons "div_yield" (.num (1/10)) .nil)] :=
  ⟨by decide, by
    rw [top_dividend_stocks_spec _ _ (by decide)]
    norm_num [List.filter, specKeepDiv, recordYield, jfLookup, numVal,
      show ¬("ticker" : String) = "div_yield" from by decide]⟩

/-- Claim C4: on a sequence of objects, `filter_sector` with a string
argument returns exactly the records whose `sector` field is present
with exactly that string value (case-sensitive, no normalization), as a
`List.filter` of the input (relative order preserved). -/
theorem filter_sector_spec (stocks : List Json) (sec : String)
    (h : sectorClean stocks = true) :
    filter_sector stocks (some (.str sec)) = .ok (stocks.filter fun s => specSectorEq s sec) := by
  induction stocks with
  | nil => rfl
  | cons s rest ih =>
    simp only [sectorClean, List.all_cons, Bool.and_eq_true] at h
    obtain ⟨hs, hrest⟩ := h
    have ihr := ih hrest
    clear ih
    cases s with
    | null => simp at hs
    | bool b => simp at hs
    | num q => simp at hs
    | str t => simp at hs
    | arr l => simp at hs
    | obj fs =>
      cases hw : jfLookup fs "sector" with
      | none =>
        simp [filter_sector, getAttr, dictGet, hw, pyEqOpt, ihr, List.filter_cons, specSectorEq]
      | some w =>
        cases w <;>
          simp [filter_sector, getAttr, dictGet, hw, pyEqOpt, pyEq, ihr, List.filter_cons,
            specSectorEq]

/-- Witness for C4, the spec's own test vector: sectors
`["Tech", "Finance", "Tech"]` filtered for `"Tech"` keep exactly the two
`"Tech"` records, in order. -/
theorem filter_sector_spec_witness :
    sectorClean [Json.obj (.cons "sector" (.str "Tech") .nil),
      Json.obj (.cons "sector" (.str "Finance") .nil),
      Json.obj (.cons "sector" (.str "Tech") (.cons "pe" (.num 3) .nil))] = true ∧
    filter_sector [Json.obj (.cons "sector" (.str "Tech") .nil),
      Json.obj (.cons "sector" (.str "Finance") .nil),
      Json.obj (.cons "sector" (.str "Tech") (.cons "pe" (.num 3) .nil))]
      (some (.str "Tech")) =
      .ok [Json.obj (.cons "sector" (.str "Tech") .nil),
        Json.obj (.cons "sector" (.str "Tech") (.cons "pe" (.num 3) .nil))] :=
  ⟨by decide, by rw [filter_sector_spec _ _ (by decide)]; decide⟩

/-- Claim C10: `filter_sector` compares a missing `sector` field as the
`None` value, so called with `None` it returns exactly the records that
lack a `sector` field plus those whose `sector` is an explicit `null`,
in original order. -/
theorem filter_sector_none_spec (stocks : List Json)
    (h : sectorClean stocks = true) :
    filter_sector stocks none = .ok (stocks.filter specSectorNone) := by
  induction stocks with
  | nil => rfl
  | cons s rest ih =>
    simp only [sectorClean, List.all_cons, Bool.and_eq_true] at h
    obtain ⟨hs, hrest⟩ := h
    have ihr := ih hrest
    clear ih
    cases s with
    | null => simp at hs
    | bool b => simp at hs
    | num q => simp at hs
    | str t => simp at hs
    | arr l => simp at hs
    | obj fs =>
      cases hw : jfLookup fs "sector" with
      | none =>
        simp [filter_sector, getAttr, dictGet, hw, pyEqOpt, ihr, List.filter_cons,
          specSectorNone]
      | some w =>
        cases w <;>
          simp [filter_sector, getAttr, dictGet, hw, pyEqOpt, ihr, List.filter_cons,
            specSectorNone]

/-- Witness for C10: of a record without `sector`, one with `sector`
`null`, and one with `sector` `"Tech"`, `filter_sector None` keeps
exactly the first two, in order. -/
theorem filter_sector_none_spec_witness :
    sectorClean [Json.obj (.cons "ticker" (.str "A") .nil),
      Json.obj (.cons "sector" .null .nil),
      Json.obj (.cons "sector" (.str "Tech") .nil)] = true ∧
    filter_sector [Json.obj (.cons "ticker" (.str "A") .nil),
      Json.obj (.cons "sector" .null .nil),
      Json.obj (.cons "sector" (.str "Tech") .nil)] none =
      .ok [Json.obj (.cons "ticker" (.str "A") .nil),
        Json.obj (.cons "sector" .null .nil)] :=
  ⟨by decide, by rw [filter_sector_none_spec _ (by decide)]; decide⟩

/-- Claim C5: every filter operation leaves the screener state — the
stored sequence in particular — unchanged, for any stored value and any
arguments; the returned sequence is a freshly built list, not an update
of the state. -/
theorem filters_preserve_state (scr : Screener) (mn mx : Option ℚ)
    (sector : Option Json) (min_yield : ℚ) :
    (scr.filterByPe mn mx).2 = scr ∧ (scr.filterSector sector).2 = scr ∧
    (scr.topDividendStocks min_yield).2 = scr :=
  ⟨rfl, rfl, rfl⟩

/-- Claim C6: running the same filter twice with identical arguments —
the second call on the state left by the first — yields identical
outputs, for each of the three filters. -/
theorem filters_idempotent (scr : Screener) (mn mx : Option ℚ)
    (sector : Option Json) (min_yield : ℚ) :
    ((scr.filterByPe mn mx).2.filterByPe mn mx).1 = (scr.filterByPe mn mx).1 ∧
    ((scr.filterSector sector).2.filterSector sector).1 = (scr.filterSector sector).1 ∧
    ((scr.topDividendStocks min_yield).2.topDividendStocks min_yield).1 =
      (scr.topDividendStocks min_yield).1 :=
  ⟨rfl, rfl, rfl⟩

/-- Claim C8 (counterexample to the literal reading): the program never
inspects the response status, so a request that completes with a
non-success status (`404` here) and a valid JSON body loads successfully
instead of failing with a NetworkError-class condition. -/
theorem load_stocks_status_cex :
    load_stocks Screener.init (.ok ⟨404, "[]"⟩) = (.ok (), ⟨.arr .nil, .nil⟩) ∧
    (404 : ℕ) ≠ 200 := by
  decide

/-- Claim C8 (as amended): `load_stocks` fails with the network error
exactly when the request itself fails (a `requests` exception), parses
the body regardless of the response status (which it never reads), and
fails with the parse error when the body is not valid JSON — in both
failures the error propagates uncaught with the stored sequence left as
it was.  After a successful parse the stored sequence is replaced by the
parsed value and the count report applies `len()` to it: for a sized
value (array, object or string) the load completes, while for a number,
boolean or `null` the report raises an uncaught `TypeError` with the
stored sequence already replaced. -/
theorem load_stocks_spec :
    (∀ (scr : Screener) (e : Unit), load_stocks scr (.error e) = (.error .network, scr)) ∧
    (∀ (scr : Screener) (s1 s2 : ℕ) (body : String),
      load_stocks scr (.ok ⟨s1, body⟩) = load_stocks scr (.ok ⟨s2, body⟩)) ∧
    (∀ (scr : Screener) (st : ℕ) (body : String), jsonParse body = none →
      load_stocks scr (.ok ⟨st, body⟩) = (.error .parse, scr)) ∧
    (∀ (scr : Screener) (st : ℕ) (body : String) (v : Json) (n : ℕ),
      jsonParse body = some v → pyLen v = .ok n →
      load_stocks scr (.ok ⟨st, body⟩) = (.ok (), { scr with stocks := v })) ∧
    (∀ (scr : Screener) (st : ℕ) (body : String) (v : Json) (e : PyErr),
      jsonParse body = some v → pyLen v = .error e →
      load_stocks scr (.ok ⟨st, body⟩) = (.error (.py e), { scr with stocks := v })) := by
  refine ⟨fun scr e => rfl, fun scr s1 s2 body => rfl,
    fun scr st body h => ?_, fun scr st body v n h hn => ?_,
    fun scr st body v e h he => ?_⟩
  · simp [load_stocks, h]
  · simp [load_stocks, h, hn]
  · simp [load_stocks, h, he]

/-- Witness for C8: a `500` response with a non-JSON body raises the
parse error leaving the state untouched; a `404` response with body
`"[1]"` loads `[1]`; and a `200` response with body `"5"` raises the
`TypeError` of the count report with the stored value already replaced
by `5`. -/
theorem load_stocks_spec_witness :
    load_stocks Screener.init (.ok ⟨500, "nonsense"⟩) = (.error .parse, Screener.init) ∧
    load_stocks Screener.init (.ok ⟨404, "[1]"⟩) =
      (.ok (), ⟨.arr (.cons (.num 1) .nil), .nil⟩) ∧
    load_stocks Screener.init (.ok ⟨200, "5"⟩) =
      (.error (.py .typeError), ⟨.num 5, .nil⟩) :=
  ⟨load_stocks_spec.2.2.1 Screener.init 500 "nonsense" (by decide),
   load_stocks_spec.2.2.2.1 Screener.init 404 "[1]" (.arr (.cons (.num 1) .nil)) 1
     (by decide) (by decide),
   load_stocks_spec.2.2.2.2 Screener.init 200 "5" (.num 5) .typeError (by decide) rfl⟩

/-- Claim C9: the no-arguments run performs exactly the fixed pipeline —
a load from the default URL, a single `filter_by_pe` with the hardcoded
bounds `(5, 15)`, and an export of the filtered result to
`"pe_stocks.json"`; any error aborts the run, and no other operation is
applied. -/
theorem main_flow_spec (fetch : String → Except Unit HttpResponse) :
    (∀ e, fetch defaultApiUrl = .error e → main_flow fetch = .error (.load .network)) ∧
    (∀ r, fetch defaultApiUrl = .ok r → jsonParse r.body = none →
      main_flow fetch = .error (.load .parse)) ∧
    (∀ r v, fetch defaultApiUrl = .ok r → jsonParse r.body = some v →
      main_flow fetch =
        match pyElems v with
        | .error e => .error (.py e)
        | .ok xs =>
          match filter_by_pe xs (some 5) (some 15) with
          | .error e => .error (.py e)
          | .ok pe_stocks => .ok ("pe_stocks.json", export_filtered pe_stocks)) := by
  refine ⟨fun e h => ?_, fun r h hp => ?_, fun r v h hp => ?_⟩
  · simp [main_flow, load_stocks, h]
  · cases r with
    | mk st body => simp only [main_flow, load_stocks, h] at hp ⊢; simp [hp]
  · cases r with
    | mk st body =>
      simp only at hp
      cases hlen : pyLen v with
      | error e =>
        cases v <;> simp_all [main_flow, load_stocks, pyLen, pyElems, h, hp]
      | ok n =>
        simp only [main_flow, load_stocks, h, hp, hlen]
        cases hpe : pyElems v with
        | error e => simp [Screener.filterByPe, hpe]
        | ok xs =>
          cases hf : filter_by_pe xs (some 5) (some 15) with
          | error e => simp [Screener.filterByPe, hpe, hf]
          | ok pe_stocks => simp [Screener.filterByPe, hpe, hf]

/-- Witness for C9: with a mocked fetch returning records with `pe`
values `7` and `99`, the run exports exactly the `pe = 7` record to
`pe_stocks.json`. -/
theorem main_flow_spec_witness :
    main_flow (fun _ => .ok ⟨200, "[\x7b\"pe\": 7\x7d, \x7b\"pe\": 99\x7d]"⟩) =
      .ok ("pe_stocks.json", export_filtered [Json.obj (.cons "pe" (.num 7) .nil)]) :=
  ((main_flow_spec (fun _ => .ok ⟨200, "[\x7b\"pe\": 7\x7d, \x7b\"pe\": 99\x7d]"⟩)).2.2
    ⟨200, "[\x7b\"pe\": 7\x7d, \x7b\"pe\": 99\x7d]"⟩
    (.arr (.cons (.obj (.cons "pe" (.num 7) .nil))
      (.cons (.obj (.cons "pe" (.num 99) .nil)) .nil)))
    rfl (by decide)).trans (by decide)

/-! ### Digit lemmas -/

theorem digitChar_isDigit {d : ℕ} (h : d < 10) : (digitChar d).isDigit = true := by
  interval_cases d <;> decide

theorem digitChar_toNat {d : ℕ} (h : d < 10) : (digitChar d).toNat - 48 = d := by
  interval_cases d <;> decide

theorem digitChar_notWs {d : ℕ} (h : d < 10) : isWs (digitChar d) = false := by
  interval_cases d <;> decide

theorem natToDigitsAux_head {f n : ℕ} (h : n < f) :
    ∃ d tl, natToDigitsAux f n = digitChar d :: tl ∧ d < 10 := by
  induction f generalizing n with
  | zero => omega
  | succ f ih =>
    by_cases h10 : n < 10
    · exact ⟨n, [], by simp [natToDigitsAux, h10], h10⟩
    · have hdiv : n / 10 < f := by
        have : n / 10 < n := Nat.div_lt_self (by omega) (by omega)
        omega
      obtain ⟨d, tl, heq, hd⟩ := ih hdiv
      exact ⟨d, tl ++ [digitChar (n % 10)], by simp [natToDigitsAux, h10, heq], hd⟩

theorem natToDec_head (n : ℕ) : ∃ d tl, natToDec n = digitChar d :: tl ∧ d < 10 :=
  natToDigitsAux_head (Nat.lt_succ_self n)

theorem natToDigitsAux_len_pos {f n : ℕ} (h : n < f) :
    1 ≤ (natToDigitsAux f n).length := by
  obtain ⟨d, tl, heq, _⟩ := natToDigitsAux_head h
  simp [heq]

theorem natToDigitsAux_len_le {f n j : ℕ} (h : n < f) (hn : n < 10 ^ j) (hj : 1 ≤ j) :
    (natToDigitsAux f n).length ≤ j := by
  induction f generalizing n j with
  | zero => omega
  | succ f ih =>
    by_cases h10 : n < 10
    · simpa [natToDigitsAux, h10] using hj
    · have hdiv : n / 10 < f := by
        have : n / 10 < n := Nat.div_lt_self (by omega) (by omega)
        omega
      have hj2 : 2 ≤ j := by
        by_contra hc
        have : j = 1 := by omega
        subst this
        simp at hn
        omega
      have hquot : n / 10 < 10 ^ (j - 1) := by
        have h1 : n < 10 ^ j := hn
        have : 10 ^ j = 10 ^ (j - 1) * 10 := by
          rw [← pow_succ]
          congr 1
          omega
        rw [this] at h1
        omega
      have := ih hdiv hquot (by omega)
      simp only [natToDigitsAux, h10, if_false]
      simp [List.length_append]
      omega

theorem digitsMunch_digits {f : ℕ} :
    ∀ {n : ℕ} (acc cnt : ℕ) (rest : List Char), n < f →
      digitsMunch acc cnt (natToDigitsAux f n ++ rest) =
        digitsMunch (acc * 10 ^ (natToDigitsAux f n).length + n)
          (cnt + (natToDigitsAux f n).length) rest := by
  induction f with
  | zero => omega
  | succ f ih =>
    intro n acc cnt rest h
    by_cases h10 : n < 10
    · simp only [natToDigitsAux, h10, if_true, List.singleton_append, List.length_singleton]
      simp only [digitsMunch, digitChar_isDigit h10, if_true, digitChar_toNat h10, pow_one]
      congr 1
      omega
    · have hdiv : n / 10 < f := by
        have : n / 10 < n := Nat.div_lt_self (by omega) (by omega)
        omega
      have hmod : n % 10 < 10 := Nat.mod_lt _ (by omega)
      simp only [natToDigitsAux, h10, if_false, List.append_assoc, List.singleton_append]
      rw [ih acc cnt _ hdiv]
      simp only [digitsMunch, digitChar_isDigit hmod, if_true, digitChar_toNat hmod,
        List.length_append, List.length_singleton]
      congr 1
      · rw [pow_succ]
        ring_nf
        omega

theorem digitsMunch_stop {acc cnt : ℕ} {rest : List Char} (h : delim rest = true) :
    digitsMunch acc cnt rest = (acc, cnt, rest) := by
  cases rest with
  | nil => rfl
  | cons c tl =>
    simp only [delim, Bool.or_eq_true, decide_eq_true_eq] at h
    rcases h with ((((h | h) | h) | h) | h) <;> subst h <;> simp [digitsMunch]

theorem digitsMunch_zeros (j : ℕ) :
    ∀ (acc cnt : ℕ) (rest : List Char),
      digitsMunch acc cnt (List.replicate j '0' ++ rest) =
        digitsMunch (acc * 10 ^ j) (cnt + j) rest := by
  induction j with
  | zero => intro acc cnt rest; simp
  | succ j ih =>
    intro acc cnt rest
    simp only [List.replicate_succ, List.cons_append]
    rw [show digitsMunch acc cnt ('0' :: (List.replicate j '0' ++ rest)) =
      digitsMunch (10 * acc) (cnt + 1) (List.replicate j '0' ++ rest) by simp [digitsMunch]]
    rw [ih]
    congr 1
    · ring
    · omega

/-! ### Whitespace lemmas -/

theorem skipWs_cons_not {c : Char} (h : isWs c = false) (cs : List Char) :
    skipWs (c :: cs) = c :: cs := by
  simp [skipWs, List.dropWhile_cons, h]

theorem skipWs_append_ws {ws : List Char} (h : ws.all isWs = true) (cs : List Char) :
    skipWs (ws ++ cs) = skipWs cs := by
  induction ws with
  | nil => rfl
  | cons w ws ih =>
    simp only [List.all_cons, Bool.and_eq_true] at h
    simp [skipWs, List.dropWhile_cons, h.1]
    exact ih h.2

theorem indentChars_all_ws (k : ℕ) : (indentChars k).all isWs = true := by
  simp [indentChars, List.all_eq_true, List.mem_replicate]
  exact Or.inr (by decide)

theorem parseVal_ws (f : ℕ) {ws : List Char} (h : ws.all isWs = true) (cs : List Char) :
    parseVal f (ws ++ cs) = parseVal f cs := by
  cases f with
  | zero => rfl
  | succ f => simp only [parseVal, skipWs_append_ws h]

/-! ### Number parsing round-trip -/

theorem parseUnsigned_int (n : ℕ) {rest : List Char} (h : delim rest = true) :
    parseUnsigned (natToDec n ++ rest) = some ((n : ℚ), rest) := by
  have hlt : n < n + 1 := Nat.lt_succ_self n
  have hlen := natToDigitsAux_len_pos hlt
  unfold parseUnsigned natToDec
  rw [digitsMunch_digits 0 0 rest hlt, digitsMunch_stop h]
  simp only [Nat.zero_mul, Nat.zero_add, zero_mul, zero_add]
  rw [if_neg (by omega)]
  cases rest with
  | nil => rfl
  | cons c tl =>
    simp only [delim, Bool.or_eq_true, decide_eq_true_eq] at h
    rcases h with ((((h | h) | h) | h) | h) <;> subst h <;> rfl

theorem parseUnsigned_frac (ip fr k : ℕ) {rest : List Char} (hk : 1 ≤ k)
    (hfr : fr < 10 ^ k) (h : delim rest = true) :
    parseUnsigned (natToDec ip ++ '.' :: (padDigits k fr ++ rest)) =
      some ((ip : ℚ) + (fr : ℚ) / 10 ^ k, rest) := by
  have hlt : ip < ip + 1 := Nat.lt_succ_self ip
  have hlen := natToDigitsAux_len_pos hlt
  have hfrlt : fr < fr + 1 := Nat.lt_succ_self fr
  have hfrlen := natToDigitsAux_len_pos hfrlt
  have hfrle : (natToDigitsAux (fr + 1) fr).length ≤ k :=
    natToDigitsAux_len_le hfrlt hfr hk
  unfold parseUnsigned natToDec padDigits natToDec
  rw [digitsMunch_digits 0 0 _ hlt]
  rw [show digitsMunch (0 * 10 ^ (natToDigitsAux (ip + 1) ip).length + ip)
        (0 + (natToDigitsAux (ip + 1) ip).length)
        ('.' :: (List.replicate (k - (natToDigitsAux (fr + 1) fr).length) '0' ++
          natToDigitsAux (fr + 1) fr ++ rest)) =
      (0 * 10 ^ (natToDigitsAux (ip + 1) ip).length + ip,
        0 + (natToDigitsAux (ip + 1) ip).length,
        '.' :: (List.replicate (k - (natToDigitsAux (fr + 1) fr).length) '0' ++
          natToDigitsAux (fr + 1) fr ++ rest)) from by simp [digitsMunch]]
  simp only [Nat.zero_mul, Nat.zero_add, zero_mul, zero_add]
  rw [if_neg (by omega)]
  rw [List.append_assoc]
  rw [digitsMunch_zeros, digitsMunch_digits _ _ _ hfrlt, digitsMunch_stop h]
  simp only [Nat.zero_mul, Nat.zero_add, zero_mul, zero_add]
  rw [if_neg (by omega)]
  have hcnt : k - (natToDigitsAux (fr + 1) fr).length + (natToDigitsAux (fr + 1) fr).length
      = k := Nat.sub_add_cancel hfrle
  rw [hcnt]

theorem kOf_dvd {q : ℚ} (h : wfNum q = true) : (q.den : ℕ) ∣ 10 ^ kOf q := by
  simp only [wfNum, decide_eq_true_eq] at h
  have hsome : (((List.range (q.den + 1)).find? fun k => decide (q.den ∣ 10 ^ k))).isSome := by
    rw [List.find?_isSome]
    exact ⟨q.den, by simp, by simpa using h⟩
  obtain ⟨k0, hk0⟩ := Option.isSome_iff_exists.mp hsome
  have hp := List.find?_some hk0
  simp only [decide_eq_true_eq] at hp
  simpa [kOf, hk0] using hp

theorem mantissa_eq {q : ℚ} (h : wfNum q = true) :
    (mantissa q : ℚ) = |q| * 10 ^ kOf q := by
  have hdvd : q.den ∣ q.num.natAbs * 10 ^ kOf q := (kOf_dvd h).mul_left _
  have hden0 : (q.den : ℚ) ≠ 0 := by
    exact_mod_cast q.den_nz
  have hcast : (mantissa q : ℚ) = (q.num.natAbs * 10 ^ kOf q : ℕ) / (q.den : ℚ) := by
    rw [mantissa, Nat.cast_div hdvd hden0]
  have habs : |q| = (q.num.natAbs : ℚ) / (q.den : ℚ) := by
    rw [Rat.abs_def, Rat.divInt_eq_div]
    push_cast [Int.cast_natAbs]
    ring
  rw [hcast, habs]
  push_cast
  ring

theorem parseUnsigned_rat {q : ℚ} (h : wfNum q = true) {rest : List Char}
    (hr : delim rest = true) :
    parseUnsigned (ratUnsigned q ++ rest) = some (|q|, rest) := by
  by_cases hk : kOf q = 0
  · rw [ratUnsigned, if_pos hk, parseUnsigned_int _ hr]
    have := mantissa_eq h
    rw [hk] at this
    simp at this
    rw [this]
  · have h1k : 1 ≤ kOf q := by omega
    have hpow : 0 < 10 ^ kOf q := pow_pos (by norm_num) _
    rw [ratUnsigned, if_neg hk]
    rw [show natToDec (mantissa q / 10 ^ kOf q) ++
        '.' :: padDigits (kOf q) (mantissa q % 10 ^ kOf q) ++ rest =
      natToDec (mantissa q / 10 ^ kOf q) ++
        '.' :: (padDigits (kOf q) (mantissa q % 10 ^ kOf q) ++ rest) from by
        simp [List.append_assoc]]
    rw [parseUnsigned_frac _ _ _ h1k (Nat.mod_lt _ hpow) hr]
    congr 1
    congr 1
    have hsplit : ((mantissa q : ℚ)) =
        ((mantissa q / 10 ^ kOf q : ℕ) : ℚ) * 10 ^ kOf q +
          ((mantissa q % 10 ^ kOf q : ℕ) : ℚ) := by
      have hnat : mantissa q =
          mantissa q / 10 ^ kOf q * 10 ^ kOf q + mantissa q % 10 ^ kOf q := by
        rw [Nat.mul_comm]
        exact (Nat.div_add_mod _ _).symm
      exact_mod_cast hnat
    have hq : ((10 : ℚ) ^ kOf q) ≠ 0 := by positivity
    have hm := mantissa_eq h
    rw [hsplit] at hm
    field_simp
    linarith [hm]

theorem ratUnsigned_head (q : ℚ) :
    ∃ d tl, ratUnsigned q = digitChar d :: tl ∧ d < 10 := by
  by_cases hk : kOf q = 0
  · rw [ratUnsigned, if_pos hk]
    exact natToDec_head _
  · rw [ratUnsigned, if_neg hk]
    obtain ⟨d, tl, heq, hd⟩ := natToDec_head (mantissa q / 10 ^ kOf q)
    exact ⟨d, tl ++ '.' :: padDigits (kOf q) (mantissa q % 10 ^ kOf q),
      by simp [heq], hd⟩

theorem parseHead_neg (cs' : List Char) (pe : List Char → Option (JList × List Char))
    (pf : List Char → Option (JFields × List Char)) :
    parseHead '-' cs' pe pf = (parseUnsigned cs').map fun p => (.num (-p.1), p.2) := rfl

theorem parseHead_digit {d : ℕ} (hd : d < 10) (cs' : List Char)
    (pe : List Char → Option (JList × List Char))
    (pf : List Char → Option (JFields × List Char)) :
    parseHead (digitChar d) cs' pe pf =
      (parseUnsigned (digitChar d :: cs')).map fun p => (.num p.1, p.2) := by
  interval_cases d <;> rfl

theorem parseVal_num (f : ℕ) {q : ℚ} (h : wfNum q = true) {rest : List Char}
    (hr : delim rest = true) :
    parseVal (f + 1) (ratToChars q ++ rest) = some (.num q, rest) := by
  by_cases hneg : q < 0
  · rw [show ratToChars q ++ rest = '-' :: (ratUnsigned q ++ rest) from by
      simp [ratToChars, hneg]]
    simp only [parseVal, skipWs_cons_not (show isWs '-' = false from by decide)]
    rw [parseHead_neg, parseUnsigned_rat h hr]
    simp [abs_of_neg hneg]
  · obtain ⟨d, tl, heq, hd⟩ := ratUnsigned_head q
    rw [show ratToChars q ++ rest = digitChar d :: (tl ++ rest) from by
      simp [ratToChars, hneg, heq]]
    simp only [parseVal, skipWs_cons_not (digitChar_notWs hd)]
    rw [parseHead_digit hd]
    rw [show digitChar d :: (tl ++ rest) = ratUnsigned q ++ rest from by simp [heq]]
    rw [parseUnsigned_rat h hr]
    simp [abs_of_nonneg (not_lt.mp hneg)]

/-! ### String escaping round-trip -/

theorem strMunch_esc {cs : List Char} (h : (cs.all fun c => 32 ≤ c.toNat) = true)
    (rest : List Char) :
    strMunch (escChars cs ++ '"' :: rest) = some (cs, rest) := by
  induction cs with
  | nil => simp [escChars]; rfl
  | cons c cs ih =>
    simp only [List.all_cons, Bool.and_eq_true, decide_eq_true_eq] at h
    obtain ⟨hc, hcs⟩ := h
    have hlt : ∀ x : Char, x.toNat < 32 → c ≠ x := by
      intro x hx hex
      subst hex
      omega
    by_cases hq : c = '"'
    · subst hq
      simp [escChars, escChar, strMunch, unescape, ih hcs]
    · by_cases hb : c = '\\'
      · subst hb
        simp [escChars, escChar, strMunch, unescape, ih hcs]
      · have he : escChar c = [c] := by
          simp [escChar, hq, hb, hlt '\n' (by decide), hlt '\t' (by decide),
            hlt '\r' (by decide), hlt (Char.ofNat 8) (by decide),
            hlt (Char.ofNat 12) (by decide), show ¬c.toNat < 32 from by omega]
        simp [escChars, he, strMunch, hq, hb, ih hcs]

theorem string_mk_data (s : String) : String.mk s.data = s := rfl

/-! ### The first character of a serialized value -/

theorem openerOk_spec {c : Char} (h : openerOk c = true) :
    isWs c = false ∧ c ≠ ']' ∧ c ≠ '\x7d' := by
  simp only [openerOk, Bool.and_eq_true, Bool.not_eq_true', decide_eq_false_iff_not] at h
  exact ⟨h.1.1, h.1.2, h.2⟩

theorem digitChar_openerOk {d : ℕ} (h : d < 10) : openerOk (digitChar d) = true := by
  interval_cases d <;> rfl

theorem serJson_head (k : ℕ) (v : Json) :
    ∃ c tl, serJson k v = c :: tl ∧ openerOk c = true := by
  cases v with
  | num q =>
    by_cases hneg : q < 0
    · refine ⟨'-', ratUnsigned q, by simp [serJson, ratToChars, hneg], rfl⟩
    · obtain ⟨d, tl, heq, hd⟩ := ratUnsigned_head q
      refine ⟨digitChar d, tl, by simp [serJson, ratToChars, hneg, heq],
        digitChar_openerOk hd⟩
  | bool b =>
    cases b
    · exact ⟨'f', _, rfl, rfl⟩
    · exact ⟨'t', _, rfl, rfl⟩
  | null => exact ⟨'n', _, rfl, rfl⟩
  | str s => exact ⟨'"', _, rfl, rfl⟩
  | arr l =>
    cases l
    · exact ⟨'[', _, rfl, rfl⟩
    · exact ⟨'[', _, rfl, rfl⟩
  | obj fs =>
    cases fs
    · exact ⟨'\x7b', _, rfl, rfl⟩
    · exact ⟨'\x7b', _, rfl, rfl⟩

/-! ### Fuel bounds for the parser -/

theorem fuelJ_pos (v : Json) : 1 ≤ fuelJ v := by
  cases v <;> simp [fuelJ]

theorem ratToChars_len_pos (q : ℚ) : 1 ≤ (ratToChars q).length := by
  obtain ⟨d, tl, heq, _⟩ := ratUnsigned_head q
  by_cases hneg : q < 0 <;> simp [ratToChars, hneg, heq]

mutual
theorem fuelJ_le_len (k : ℕ) (v : Json) : fuelJ v ≤ (serJson k v).length := by
  cases v with
  | null => simp [fuelJ, serJson]
  | bool b => cases b <;> simp [fuelJ, serJson]
  | num q => simpa [fuelJ, serJson] using ratToChars_len_pos q
  | str s => simp [fuelJ, serJson]
  | arr l =>
    cases l with
    | nil => simp [fuelJ, fuelL, serJson]
    | cons v l =>
      have h := fuelL_le_len (k + 1) (.cons v l)
      simp only [fuelJ, serJson, List.length_cons, List.length_append, indentChars,
        List.length_replicate, List.length_singleton] at h ⊢
      omega
  | obj fs =>
    cases fs with
    | nil => simp [fuelJ, fuelF, serJson]
    | cons key v fs =>
      have h := fuelF_le_len (k + 1) (.cons key v fs)
      simp only [fuelJ, serJson, List.length_cons, List.length_append, indentChars,
        List.length_replicate, List.length_singleton] at h ⊢
      omega

theorem fuelL_le_len (k : ℕ) (l : JList) : fuelL l ≤ (serElems k l).length + 1 := by
  cases l with
  | nil => simp [fuelL]
  | cons v l =>
    cases l with
    | nil =>
      have h := fuelJ_le_len k v
      simp only [fuelL, serElems, List.length_append, indentChars,
        List.length_replicate] at h ⊢
      omega
    | cons w l =>
      have h1 := fuelJ_le_len k v
      have h2 := fuelL_le_len k (.cons w l)
      simp only [fuelL, serElems, List.length_append, List.length_cons, indentChars,
        List.length_replicate] at h1 h2 ⊢
      omega

theorem fuelF_le_len (k : ℕ) (fs : JFields) : fuelF fs ≤ (serFields k fs).length + 1 := by
  cases fs with
  | nil => simp [fuelF]
  | cons key v fs =>
    cases fs with
    | nil =>
      have h := fuelJ_le_len k v
      simp only [fuelF, serFields, List.length_append, List.length_cons, indentChars,
        List.length_replicate] at h ⊢
      omega
    | cons key2 w fs =>
      have h1 := fuelJ_le_len k v
      have h2 := fuelF_le_len k (.cons key2 w fs)
      simp only [fuelF, serFields, List.length_append, List.length_cons, indentChars,
        List.length_replicate] at h1 h2 ⊢
      omega
end

/-! ### Round-trip: the parser recovers every serialized value -/

theorem elems_skipWs (k : ℕ) (v : Json) (l : JList) (tail : List Char) :
    ∃ c X, skipWs ('\n' :: (serElems k (.cons v l) ++ tail)) = c :: X ∧
      c ≠ ']' ∧ c ≠ '\x7d' := by
  obtain ⟨c0, tl0, he0, hok⟩ := serJson_head k v
  obtain ⟨hw0, hne1, hne2⟩ := openerOk_spec hok
  have hstep : ∀ Z, skipWs ('\n' :: (indentChars k ++ (serJson k v ++ Z))) =
      c0 :: (tl0 ++ Z) := by
    intro Z
    rw [show ('\n' :: (indentChars k ++ (serJson k v ++ Z))) =
      (('\n' :: indentChars k) ++ (serJson k v ++ Z)) from by simp]
    rw [skipWs_append_ws (by simp [indentChars_all_ws, isWs])]
    rw [he0, List.cons_append, skipWs_cons_not hw0]
  cases l with
  | nil =>
    refine ⟨c0, tl0 ++ tail, ?_, hne1, hne2⟩
    rw [show serElems k (.cons v .nil) ++ tail =
      indentChars k ++ (serJson k v ++ tail) from by simp [serElems]]
    exact hstep tail
  | cons w l' =>
    refine ⟨c0, tl0 ++ (',' :: '\n' :: serElems k (.cons w l') ++ tail), ?_, hne1, hne2⟩
    rw [show serElems k (.cons v (.cons w l')) ++ tail =
      indentChars k ++ (serJson k v ++ (',' :: '\n' :: serElems k (.cons w l') ++ tail))
      from by simp [serElems]]
    exact hstep _

theorem fields_skipWs (k : ℕ) (key : String) (v : Json) (fs : JFields) (tail : List Char) :
    ∃ X, skipWs ('\n' :: (serFields k (.cons key v fs) ++ tail)) = '"' :: X := by
  have hstep : ∀ Y, skipWs ('\n' :: (indentChars k ++ ('"' :: Y))) = '"' :: Y := by
    intro Y
    rw [show ('\n' :: (indentChars k ++ ('"' :: Y))) =
      (('\n' :: indentChars k) ++ ('"' :: Y)) from by simp]
    rw [skipWs_append_ws (by simp [indentChars_all_ws, isWs])]
    exact skipWs_cons_not (by decide) _
  cases fs with
  | nil =>
    refine ⟨escChars key.data ++ '"' :: ':' :: ' ' :: serJson k v ++ tail, ?_⟩
    rw [show serFields k (.cons key v .nil) ++ tail =
      indentChars k ++ ('"' :: (escChars key.data ++ '"' :: ':' :: ' ' :: serJson k v ++ tail))
      from by simp [serFields]]
    exact hstep _
  | cons key2 w fs' =>
    refine ⟨escChars key.data ++ '"' :: ':' :: ' ' ::
      (serJson k v ++ ',' :: '\n' :: serFields k (.cons key2 w fs') ++ tail), ?_⟩
    rw [show serFields k (.cons key v (.cons key2 w fs')) ++ tail =
      indentChars k ++ ('"' :: (escChars key.data ++ '"' :: ':' :: ' ' ::
        (serJson k v ++ ',' :: '\n' :: serFields k (.cons key2 w fs') ++ tail)))
      from by simp [serFields]]
    exact hstep _

theorem parse_ser (f : ℕ) :
    (∀ (v : Json) (k : ℕ) (rest : List Char),
      wfJ v = true → fuelJ v ≤ f → delim rest = true →
      parseVal f (serJson k v ++ rest) = some (v, rest)) ∧
    (∀ (v : Json) (l : JList) (k : ℕ) (rest : List Char),
      wfJ v = true → wfL l = true → fuelL (.cons v l) ≤ f →
      parseElems f ('\n' :: (serElems (k + 1) (.cons v l) ++
        ('\n' :: (indentChars k ++ (']' :: rest))))) = some (.cons v l, rest)) ∧
    (∀ (key : String) (v : Json) (fs : JFields) (k : ℕ) (rest : List Char),
      wfStr key = true → wfJ v = true → wfF fs = true → fuelF (.cons key v fs) ≤ f →
      parseFields f ('\n' :: (serFields (k + 1) (.cons key v fs) ++
        ('\n' :: (indentChars k ++ ('\x7d' :: rest))))) = some (.cons key v fs, rest)) := by
  induction f with
  | zero =>
    refine ⟨fun v k rest _ hf _ => absurd hf (by have := fuelJ_pos v; omega),
      fun v l k rest _ _ hf => absurd hf (by simp [fuelL]),
      fun key v fs k rest _ _ _ hf => absurd hf (by simp [fuelF])⟩
  | succ f ih =>
    obtain ⟨ihV, ihE, ihF⟩ := ih
    refine ⟨?_, ?_, ?_⟩
    · -- parseVal recovers a serialized value
      intro v k rest hwf hfuel hdelim
      cases v with
      | null => rfl
      | bool b => cases b <;> rfl
      | num q =>
        simp only [wfJ] at hwf
        exact parseVal_num f hwf hdelim
      | str s =>
        simp only [wfJ, wfStr] at hwf
        rw [show serJson k (.str s) ++ rest =
          '"' :: (escChars s.data ++ '"' :: rest) from by simp [serJson]]
        simp only [parseVal, skipWs_cons_not (show isWs '"' = false from by decide)]
        rw [show (parseHead '"' (escChars s.data ++ '"' :: rest)
            (parseElems f) (parseFields f)) =
          (strMunch (escChars s.data ++ '"' :: rest)).map
            (fun p => (.str (String.mk p.1), p.2)) from rfl]
        rw [strMunch_esc hwf]
        simp [string_mk_data]
      | arr l =>
        cases l with
        | nil => rfl
        | cons v1 l1 =>
          simp only [wfJ, wfL, Bool.and_eq_true] at hwf
          obtain ⟨hv1, hl1⟩ := hwf
          have hfl : fuelL (.cons v1 l1) ≤ f := by
            simp only [fuelJ] at hfuel
            omega
          rw [show serJson k (.arr (.cons v1 l1)) ++ rest =
            '[' :: ('\n' :: (serElems (k + 1) (.cons v1 l1) ++
              ('\n' :: (indentChars k ++ (']' :: rest))))) from by simp [serJson]]
          simp only [parseVal, skipWs_cons_not (show isWs '[' = false from by decide)]
          rw [show (parseHead '[' ('\n' :: (serElems (k + 1) (.cons v1 l1) ++
              ('\n' :: (indentChars k ++ (']' :: rest)))))
              (parseElems f) (parseFields f)) =
            (match skipWs ('\n' :: (serElems (k + 1) (.cons v1 l1) ++
                ('\n' :: (indentChars k ++ (']' :: rest))))) with
             | d :: r => if d = ']' then some (.arr .nil, r)
                else (parseElems f ('\n' :: (serElems (k + 1) (.cons v1 l1) ++
                  ('\n' :: (indentChars k ++ (']' :: rest)))))).map
                  fun p => (.arr p.1, p.2)
             | [] => none) from rfl]
          obtain ⟨c0, X, hskip, hne1, _⟩ :=
            elems_skipWs (k + 1) v1 l1 ('\n' :: (indentChars k ++ (']' :: rest)))
          rw [hskip]
          simp only [if_neg hne1]
          rw [ihE v1 l1 k rest hv1 hl1 hfl]
          rfl
      | obj fs =>
        cases fs with
        | nil => rfl
        | cons key1 v1 fs1 =>
          simp only [wfJ, wfF, Bool.and_eq_true] at hwf
          obtain ⟨⟨hk1, hv1⟩, hf1⟩ := hwf
          have hfl : fuelF (.cons key1 v1 fs1) ≤ f := by
            simp only [fuelJ] at hfuel
            omega
          rw [show serJson k (.obj (.cons key1 v1 fs1)) ++ rest =
            '\x7b' :: ('\n' :: (serFields (k + 1) (.cons key1 v1 fs1) ++
              ('\n' :: (indentChars k ++ ('\x7d' :: rest))))) from by simp [serJson]]
          simp only [parseVal, skipWs_cons_not (show isWs '\x7b' = false from by decide)]
          rw [show (parseHead '\x7b' ('\n' :: (serFields (k + 1) (.cons key1 v1 fs1) ++
              ('\n' :: (indentChars k ++ ('\x7d' :: rest)))))
              (parseElems f) (parseFields f)) =
            (match skipWs ('\n' :: (serFields (k + 1) (.cons key1 v1 fs1) ++
                ('\n' :: (indentChars k ++ ('\x7d' :: rest))))) with
             | d :: r => if d = '\x7d' then some (.obj .nil, r)
                else (parseFields f ('\n' :: (serFields (k + 1) (.cons key1 v1 fs1) ++
                  ('\n' :: (indentChars k ++ ('\x7d' :: rest)))))).map
                  fun p => (.obj p.1, p.2)
             | [] => none) from rfl]
          obtain ⟨X, hskip⟩ :=
            fields_skipWs (k + 1) key1 v1 fs1 ('\n' :: (indentChars k ++ ('\x7d' :: rest)))
          rw [hskip]
          simp only [if_neg (show ('"' : Char) ≠ '\x7d' from by decide)]
          rw [ihF key1 v1 fs1 k rest hk1 hv1 hf1 hfl]
          rfl
    · -- parseElems recovers the serialized items of a non-empty array
      intro v l k rest hv hl hfuel
      cases l with
      | nil =>
        have hfv : fuelJ v ≤ f := by
          simp only [fuelL] at hfuel
          omega
        rw [show ('\n' :: (serElems (k + 1) (.cons v .nil) ++
            ('\n' :: (indentChars k ++ (']' :: rest))))) =
          (('\n' :: indentChars (k + 1)) ++ (serJson (k + 1) v ++
            ('\n' :: (indentChars k ++ (']' :: rest))))) from by simp [serElems]]
        have hskip : skipWs ('\n' :: (indentChars k ++ (']' :: rest))) = ']' :: rest := by
          rw [show ('\n' :: (indentChars k ++ (']' :: rest))) =
            (('\n' :: indentChars k) ++ (']' :: rest)) from by simp]
          rw [skipWs_append_ws (by simp [indentChars_all_ws, isWs])]
          exact skipWs_cons_not (by decide) _
        simp only [parseElems]
        rw [parseVal_ws f (by simp [indentChars_all_ws, isWs]) _]
        rw [ihV v (k + 1) _ hv hfv (by simp [delim])]
        simp only [hskip]
      | cons w l' =>
        simp only [wfL, Bool.and_eq_true] at hl
        obtain ⟨hw, hl'⟩ := hl
        have hfv : fuelJ v ≤ f := by
          simp only [fuelL] at hfuel
          omega
        have hfw : fuelL (.cons w l') ≤ f := by
          simp only [fuelL] at hfuel ⊢
          omega
        rw [show ('\n' :: (serElems (k + 1) (.cons v (.cons w l')) ++
            ('\n' :: (indentChars k ++ (']' :: rest))))) =
          (('\n' :: indentChars (k + 1)) ++ (serJson (k + 1) v ++
            (',' :: ('\n' :: (serElems (k + 1) (.cons w l') ++
              ('\n' :: (indentChars k ++ (']' :: rest)))))))) from by simp [serElems]]
        have hskip : skipWs (',' :: ('\n' :: (serElems (k + 1) (.cons w l') ++
            ('\n' :: (indentChars k ++ (']' :: rest)))))) =
          ',' :: ('\n' :: (serElems (k + 1) (.cons w l') ++
            ('\n' :: (indentChars k ++ (']' :: rest))))) :=
          skipWs_cons_not (by decide) _
        simp only [parseElems]
        rw [parseVal_ws f (by simp [indentChars_all_ws, isWs]) _]
        rw [ihV v (k + 1) _ hv hfv (by simp [delim])]
        simp only [hskip]
        rw [ihE w l' k rest hw hl' hfw]
        rfl
    · -- parseFields recovers the serialized fields of a non-empty object
      intro key v fs k rest hkey hv hfs hfuel
      cases fs with
      | nil =>
        have hfv : fuelJ v ≤ f := by
          simp only [fuelF] at hfuel
          omega
        have hskip : skipWs ('\n' :: (indentChars k ++ ('\x7d' :: rest))) =
            '\x7d' :: rest := by
          rw [show ('\n' :: (indentChars k ++ ('\x7d' :: rest))) =
            (('\n' :: indentChars k) ++ ('\x7d' :: rest)) from by simp]
          rw [skipWs_append_ws (by simp [indentChars_all_ws, isWs])]
          exact skipWs_cons_not (by decide) _
        rw [show ('\n' :: (serFields (k + 1) (.cons key v .nil) ++
            ('\n' :: (indentChars k ++ ('\x7d' :: rest))))) =
          (('\n' :: indentChars (k + 1)) ++ ('"' :: (escChars key.data ++
            '"' :: (':' :: (' ' :: (serJson (k + 1) v ++
              ('\n' :: (indentChars k ++ ('\x7d' :: rest))))))))) from by simp [serFields]]
        simp only [parseFields]
        rw [skipWs_append_ws (by simp [indentChars_all_ws, isWs])]
        rw [skipWs_cons_not (show isWs '"' = false from by decide)]
        simp only [if_pos]
        rw [strMunch_esc (by simpa [wfStr] using hkey)]
        have hskip2 : skipWs (':' :: (' ' :: (serJson (k + 1) v ++
            ('\n' :: (indentChars k ++ ('\x7d' :: rest)))))) =
          ':' :: (' ' :: (serJson (k + 1) v ++
            ('\n' :: (indentChars k ++ ('\x7d' :: rest))))) :=
          skipWs_cons_not (by decide) _
        simp only [hskip2]
        rw [show (' ' :: (serJson (k + 1) v ++
            ('\n' :: (indentChars k ++ ('\x7d' :: rest))))) =
          ([' '] ++ (serJson (k + 1) v ++
            ('\n' :: (indentChars k ++ ('\x7d' :: rest))))) from by simp]
        rw [parseVal_ws f (by simp [isWs]) _]
        rw [ihV v (k + 1) _ hv hfv (by simp [delim])]
        simp only [hskip, string_mk_data]
      | cons key2 w fs' =>
        simp only [wfF, Bool.and_eq_true] at hfs
        obtain ⟨⟨hk2, hw⟩, hfs'⟩ := hfs
        have hfv : fuelJ v ≤ f := by
          simp only [fuelF] at hfuel
          omega
        have hfw : fuelF (.cons key2 w fs') ≤ f := by
          simp only [fuelF] at hfuel ⊢
          omega
        have hskip : skipWs (',' :: ('\n' :: (serFields (k + 1) (.cons key2 w fs') ++
            ('\n' :: (indentChars k ++ ('\x7d' :: rest)))))) =
          ',' :: ('\n' :: (serFields (k + 1) (.cons key2 w fs') ++
            ('\n' :: (indentChars k ++ ('\x7d' :: rest))))) :=
          skipWs_cons_not (by decide) _
        rw [show ('\n' :: (serFields (k + 1) (.cons key v (.cons key2 w fs')) ++
            ('\n' :: (indentChars k ++ ('\x7d' :: rest))))) =
          (('\n' :: indentChars (k + 1)) ++ ('"' :: (escChars key.data ++
            '"' :: (':' :: (' ' :: (serJson (k + 1) v ++
              (',' :: ('\n' :: (serFields (k + 1) (.cons key2 w fs') ++
                ('\n' :: (indentChars k ++ ('\x7d' :: rest)))))))))))) from by
          simp [serFields]]
        simp only [parseFields]
        rw [skipWs_append_ws (by simp [indentChars_all_ws, isWs])]
        rw [skipWs_cons_not (show isWs '"' = false from by decide)]
        simp only [if_pos]
        rw [strMunch_esc (by simpa [wfStr] using hkey)]
        have hskip2 : skipWs (':' :: (' ' :: (serJson (k + 1) v ++
            (',' :: ('\n' :: (serFields (k + 1) (.cons key2 w fs') ++
              ('\n' :: (indentChars k ++ ('\x7d' :: rest))))))))) =
          ':' :: (' ' :: (serJson (k + 1) v ++
            (',' :: ('\n' :: (serFields (k + 1) (.cons key2 w fs') ++
              ('\n' :: (indentChars k ++ ('\x7d' :: rest)))))))) :=
          skipWs_cons_not (by decide) _
        simp only [hskip2]
        rw [show (' ' :: (serJson (k + 1) v ++
            (',' :: ('\n' :: (serFields (k + 1) (.cons key2 w fs') ++
              ('\n' :: (indentChars k ++ ('\x7d' :: rest)))))))) =
          ([' '] ++ (serJson (k + 1) v ++
            (',' :: ('\n' :: (serFields (k + 1) (.cons key2 w fs') ++
              ('\n' :: (indentChars k ++ ('\x7d' :: rest)))))))) from by simp]
        rw [parseVal_ws f (by simp [isWs]) _]
        rw [ihV v (k + 1) _ hv hfv (by simp [delim])]
        simp only [hskip]
        rw [ihF key2 w fs' k rest hk2 hw hfs' hfw]
        simp [string_mk_data]

theorem wfL_toJList (stocks : List Json) : wfL (toJList stocks) = stocks.all wfJ := by
  induction stocks with
  | nil => rfl
  | cons v vs ih => simp [toJList, wfL, ih]

/-- Claim C7: `export_filtered` serializes the given sequence as a JSON
array (UTF-8 text, 3-space indentation, non-ASCII unescaped — see
`export_filtered_example` for the exact bytes of the spec's test vector)
such that parsing the produced content yields exactly the input
sequence.  Stated for sequences in the serializable fragment `wfJ`:
numbers with terminating decimal expansions and strings free of control
characters. -/
theorem export_roundtrip (stocks : List Json) (h : stocks.all wfJ = true) :
    jsonParse (export_filtered stocks) = some (.arr (toJList stocks)) := by
  have hwf : wfJ (.arr (toJList stocks)) = true := by
    simp only [wfJ, wfL_toJList, h]
  have hfuel : fuelJ (.arr (toJList stocks)) ≤
      (serJson 0 (.arr (toJList stocks))).length + 1 := by
    have := fuelJ_le_len 0 (.arr (toJList stocks))
    omega
  have hparse := (parse_ser ((serJson 0 (.arr (toJList stocks))).length + 1)).1
    (.arr (toJList stocks)) 0 [] hwf hfuel (by decide)
  rw [List.append_nil] at hparse
  simp only [jsonParse, export_filtered]
  rw [show (String.mk (serJson 0 (.arr (toJList stocks)))).length =
    (serJson 0 (.arr (toJList stocks))).length from rfl]
  rw [hparse]
  rfl

/-- Witness for C7, the spec's own test vector: exporting `[{"a": 1}]`
produces content that parses back to `[{"a": 1}]`. -/
theorem export_roundtrip_witness :
    ([Json.obj (.cons "a" (.num 1) .nil)].all wfJ) = true ∧
    jsonParse (export_filtered [Json.obj (.cons "a" (.num 1) .nil)]) =
      some (.arr (.cons (.obj (.cons "a" (.num 1) .nil)) .nil)) :=
  ⟨by decide, by rw [export_roundtrip _ (by decide)]; rfl⟩

/-- The exact file content of `exportFiltered([{"a":1}], ...)`: a JSON
array with 3-space indentation, matching `json.dump(ensure_ascii=False,
indent=3)` byte for byte. -/
theorem export_filtered_example :
    export_filtered [Json.obj (.cons "a" (.num 1) .nil)] =
      "[\n   \x7b\n      \"a\": 1\n   \x7d\n]" := by decide
